import Mathlib

/-!
Verification of the path-tracking and comparison engine of a structural
equality / diff library. The path model (steps, simplified and full
rendering, identifier validation) is translated from the library's path
source file. The comparison walker and rule resolver are not part of the
provided sources (only their tests are), so they are modelled from the
specification; those definitions carry a doc comment saying so.
-/

namespace GoCmp

/-- A step of a `Path`, the union type of the source: the operation-less
root step, slice index, map index, type assertion, struct field access,
pointer indirection, and transform application. Types are represented by
their string form (the only use the rendering code makes of them); a map
key is represented by its rendered literal. -/
inductive PathStep where
  | rootStep      (typ : String)
  | sliceIndex    (typ : String) (key : Int)
  | mapIndex      (typ : String) (keyRepr : String)
  | typeAssertion (typ : String)
  | structField   (typ : String) (name : String) (idx : Nat)
  | indirect      (typ : String)
  | transform     (typ : String) (name : String)
deriving DecidableEq

/-- `strings.Join(ss, "")`: concatenation of a list of strings. -/
def joinAll (l : List String) : String := l.foldr (· ++ ·) ""

/-- `strings.Repeat("*", n)`. -/
def repStars (n : Nat) : String := String.mk (List.replicate n '*')

/-- `strings.ContainsAny(s, chars)`: some character of `s` is in `chars`. -/
def containsAny (s : String) (chars : List Char) : Bool :=
  s.data.any fun c => chars.contains c

/-- `pathStep.String()`: renders the operation-less step as `{T}`, or the
token `root` when the type string is empty or holds a brace or newline. -/
def pathStepString (typ : String) : String :=
  if typ = "" || containsAny typ ['\x7b', '\x7d', '\n'] then "root"
  else "\x7b" ++ typ ++ "\x7d"

/-- The `String()` method of each concrete step type. -/
def stepString : PathStep → String
  | .rootStep t => pathStepString t
  | .sliceIndex _ k => "[" ++ toString k ++ "]"
  | .mapIndex _ kr => "[" ++ kr ++ "]"
  | .typeAssertion t => ".(" ++ t ++ ")"
  | .structField _ n _ => "." ++ n
  | .indirect _ => "*"
  | .transform _ n => n ++ "()"

/-- `Path.push`: append a step. -/
def pushStep (pa : List PathStep) (s : PathStep) : List PathStep := pa ++ [s]

/-- `Path.pop`: `(*pa)[:len(*pa)-1]`, removal of the last step. -/
def popStep (pa : List PathStep) : List PathStep := pa.dropLast

/-- Whether a step is a struct-field access (the `*structField` type test
of `Path.String`). -/
def isStructFieldStep : PathStep → Bool
  | .structField .. => true
  | _ => false

/-- `strings.TrimPrefix(s, ".")`. -/
def trimLeadingDot (s : String) : String :=
  if s.startsWith "." then s.drop 1 else s

/-- `Path.String()`: the simplified rendering, joining the `String()` of
the struct-field steps only and trimming the leading dot. -/
def pathString (pa : List PathStep) : String :=
  trimLeadingDot (joinAll ((pa.filter isStructFieldStep).map stepString))

/-- The loop body of `Path.GoString()` in compositional form: processes the
steps left to right with one-step lookahead, carrying the count of batched
consecutive indirections, and produces the prefix tokens (chronological
order; the caller reverses them) and the postfix tokens. Mirrors the Go
loop: an indirection batches with a following indirection; when the batch
ends it emits `(` + stars into the prefix and `)` into the postfix, drops
one star when the next step is a struct field, uses no parentheses at the
end of the path, and emits nothing when the adjusted count is zero; a
transform emits `name(` / `)`; a type assertion is elided before a
transform; every other step appends its own token to the postfix. -/
def goRender : List PathStep → Nat → List String × List String
  | [], _ => ([], [])
  | s :: rest, numIndirect =>
    match s with
    | .indirect _ =>
      let n := numIndirect + 1
      match rest.head? with
      | some (.indirect _) => goRender rest n
      | some (.structField ..) =>
        let r := goRender rest 0
        if n - 1 > 0 then (("(" ++ repStars (n - 1)) :: r.1, ")" :: r.2) else r
      | none =>
        let r := goRender rest 0
        if n > 0 then (repStars n :: r.1, "" :: r.2) else r
      | some _ =>
        let r := goRender rest 0
        if n > 0 then (("(" ++ repStars n) :: r.1, ")" :: r.2) else r
    | .transform _ name =>
      let r := goRender rest numIndirect
      ((name ++ "(") :: r.1, ")" :: r.2)
    | .typeAssertion t =>
      match rest.head? with
      | some (.transform ..) => goRender rest numIndirect
      | _ =>
        let r := goRender rest numIndirect
        (r.1, stepString (.typeAssertion t) :: r.2)
    | s =>
      let r := goRender rest numIndirect
      (r.1, stepString s :: r.2)

/-- `Path.GoString()`: the full rendering. The prefix tokens are reversed
(as the Go code reverses `ssPre` in place) and joined, then the postfix
tokens are joined. -/
def goString (pa : List PathStep) : String :=
  joinAll (goRender pa 0).1.reverse ++ joinAll (goRender pa 0).2

/-- `isValid(id)`: the identifier validator, parameterised by the letter
and digit classifier of the host environment (`unicode.IsLetter`,
`unicode.IsDigit`); the string is its character list, and the positional
test `j > 0` of the Go range loop is the character position test. -/
def isValid (L D : Char → Bool) (id : List Char) : Bool :=
  id.enum.foldl
    (fun ok jc =>
      ok && (decide (0 < jc.1) || !(D jc.2)) && (jc.2 == '_' || L jc.2 || D jc.2))
    (!(id == []) && !(id == ['_']))

/-! ### Simplified rendering (C7) -/

/-- The specification's reading of the simplified rendering: the `.Name`
token of each struct-field step, in order. -/
def structFieldToken : PathStep → Option String
  | .structField _ n _ => some ("." ++ n)
  | _ => none

/-- The simplified rendering as the specification words it: concatenate
exactly the struct-field steps' `.Name` tokens and remove the leading
separator. -/
def specSimplified (pa : List PathStep) : String :=
  trimLeadingDot (joinAll (pa.filterMap structFieldToken))

/-- C7: the simplified rendering `Path.String` equals the concatenation, in
order, of the `.Name` tokens of exactly the struct-field steps with the
leading separator removed; every other step kind contributes nothing. -/
theorem path_string_struct_fields (pa : List PathStep) :
    pathString pa = specSimplified pa := by
  unfold pathString specSimplified
  congr 2
  induction pa with
  | nil => rfl
  | cons s rest ih =>
    cases s <;>
      simp [isStructFieldStep, structFieldToken, stepString,
        List.filter_cons, List.filterMap_cons, ih]

/-! ### push / pop (C9) -/

/-- C9: `pop` undoes `push`: pushing a step and popping leaves every path
unchanged. -/
theorem pop_push_cancel (pa : List PathStep) (s : PathStep) :
    popStep (pushStep pa s) = pa := by
  simp [pushStep, popStep]

/-! ### Root-step rendering (C10) -/

/-- C10: the operation-less root step renders as `{T}` for the step's type
string `T`, falling back to the literal token `root` exactly when `T` is
empty or contains a `{`, a `}` or a newline. -/
theorem root_step_rendering (t : String) :
    (pathStepString t = "root" ↔
      (t = "" ∨ '\x7b' ∈ t.data ∨ '\x7d' ∈ t.data ∨ '\n' ∈ t.data)) ∧
    (¬(t = "" ∨ '\x7b' ∈ t.data ∨ '\x7d' ∈ t.data ∨ '\n' ∈ t.data) →
      pathStepString t = "\x7b" ++ t ++ "\x7d") := by
  have hcond : (t = "" || containsAny t ['\x7b', '\x7d', '\n']) = true ↔
      (t = "" ∨ '\x7b' ∈ t.data ∨ '\x7d' ∈ t.data ∨ '\n' ∈ t.data) := by
    simp [containsAny, List.any_eq_true]
    constructor
    · rintro (h | ⟨c, hc, h⟩)
      · exact Or.inl h
      · rcases h with h | h | h <;> subst h <;> simp [hc]
    · rintro (h | h | h | h)
      · exact Or.inl h
      · exact Or.inr ⟨_, h, by simp⟩
      · exact Or.inr ⟨_, h, by simp⟩
      · exact Or.inr ⟨_, h, by simp⟩
  have hne : ("\x7b" ++ t ++ "\x7d" : String) ≠ "root" := by
    intro h
    have hdata := congrArg String.data h
    simp [String.data_append] at hdata
  constructor
  · constructor
    · intro h
      by_contra hc
      rw [pathStepString, if_neg (by simpa [hcond] using hc)] at h
      exact hne h
    · intro h
      rw [pathStepString, if_pos (hcond.mpr h)]
  · intro h
    rw [pathStepString, if_neg (by simpa [hcond] using h)]

/-! ### Identifier validation (C8) -/

/-- The per-character condition of the validator: underscore, letter or
digit. -/
def charOk (L D : Char → Bool) (c : Char) : Bool := c == '_' || L c || D c

theorem foldl_and_eq {α : Type} (g : α → Bool) (l : List α) :
    ∀ init : Bool, l.foldl (fun ok x => ok && g x) init = (init && l.all g) := by
  induction l with
  | nil => intro init; simp
  | cons a l ih => intro init; simp [List.foldl_cons, List.all_cons, ih, Bool.and_assoc]

theorem all_enumFrom_pos {α : Type} (h1 g2 : α → Bool) (l : List α) :
    ∀ k : Nat,
      ((List.enumFrom (k + 1) l).all fun jc =>
          (decide (0 < jc.1) || h1 jc.2) && g2 jc.2) = l.all g2 := by
  induction l with
  | nil => intro k; rfl
  | cons a l ih =>
    intro k
    rw [List.enumFrom_cons, List.all_cons, ih (k + 1), List.all_cons]
    simp

/-- C8: the validator accepts an identifier exactly when it is non-empty,
is not the reserved placeholder `_`, every character is a letter, digit or
underscore, and the first character is not a digit. -/
theorem isValid_iff_spec (L D : Char → Bool) (id : List Char) :
    isValid L D id = true ↔
      (id ≠ [] ∧ id ≠ ['_'] ∧
        (∀ c ∈ id, c = '_' ∨ L c = true ∨ D c = true) ∧
        (∀ c ∈ id.take 1, D c = false)) := by
  have hfold : isValid L D id =
      ((!(id == []) && !(id == ['_'])) &&
        id.enum.all fun jc =>
          (decide (0 < jc.1) || !(D jc.2)) && charOk L D jc.2) := by
    unfold isValid
    rw [show (fun (ok : Bool) (jc : Nat × Char) =>
        ok && (decide (0 < jc.1) || !(D jc.2)) && (jc.2 == '_' || L jc.2 || D jc.2)) =
        fun (ok : Bool) (jc : Nat × Char) =>
          ok && ((decide (0 < jc.1) || !(D jc.2)) && charOk L D jc.2) from by
      funext ok jc
      simp [charOk, Bool.and_assoc]]
    rw [foldl_and_eq]
  cases id with
  | nil => simp [hfold]
  | cons c cs =>
    rw [hfold]
    have henum : (c :: cs).enum = (0, c) :: List.enumFrom 1 cs := rfl
    rw [henum]
    rw [List.all_cons, all_enumFrom_pos (fun x => !(D x)) (charOk L D) cs 0]
    simp only [charOk, List.all_eq_true, Bool.and_eq_true, Bool.or_eq_true,
      Bool.not_eq_true', beq_iff_eq, decide_eq_true_eq, List.forall_mem_cons,
      List.take_succ_cons, List.take_zero, List.forall_mem_singleton,
      Nat.lt_irrefl, decide_eq_false_iff_not, Bool.not_eq_true,
      beq_eq_false_iff_ne, List.cons_ne_nil, ne_eq, not_false_eq_true,
      List.cons.injEq, not_and, List.mem_singleton, List.not_mem_nil,
      false_implies, implies_true, and_true, true_and, false_or, or_assoc]
    constructor
    · rintro ⟨h1, ⟨hd, hc⟩, hall⟩
      exact ⟨h1, ⟨hc, hall⟩, fun c1 e => e ▸ hd⟩
    · rintro ⟨h1, ⟨hc, hall⟩, hfirst⟩
      exact ⟨h1, ⟨hfirst c rfl, hc⟩, hall⟩

/-! ### Full rendering: indirect runs (C5) -/

/-- Whether a step list starts with an indirection (the lookahead test of
the rendering loop). -/
def headIsIndirect : List PathStep → Bool
  | .indirect _ :: _ => true
  | _ => false

theorem goRender_indirect_run_aux (typ : String) :
    ∀ (k n : Nat) (rest : List PathStep), headIsIndirect rest = false →
      goRender (List.replicate (k + 1) (.indirect typ) ++ rest) n =
        match rest.head? with
        | none => (repStars (n + (k + 1)) :: (goRender rest 0).1, "" :: (goRender rest 0).2)
        | some (.structField ..) =>
          if n + (k + 1) - 1 > 0 then
            (("(" ++ repStars (n + (k + 1) - 1)) :: (goRender rest 0).1,
              ")" :: (goRender rest 0).2)
          else goRender rest 0
        | some _ =>
          (("(" ++ repStars (n + (k + 1))) :: (goRender rest 0).1,
            ")" :: (goRender rest 0).2) := by
  intro k
  induction k with
  | zero =>
    intro n rest hrest
    rw [List.replicate_succ, List.replicate_zero, List.cons_append, List.nil_append]
    cases rest with
    | nil => simp [goRender]
    | cons s rest' =>
      cases s <;> simp_all [goRender, headIsIndirect, Nat.add_comm n 1]
  | succ k ih =>
    intro n rest hrest
    rw [List.replicate_succ, List.cons_append]
    have hhead : (List.replicate (k + 1) (PathStep.indirect typ) ++ rest).head? =
        some (.indirect typ) := by
      rw [List.replicate_succ]; rfl
    show goRender (.indirect typ :: (List.replicate (k + 1) (.indirect typ) ++ rest)) n = _
    rw [goRender]
    rw [hhead]
    rw [ih (n + 1) rest hrest]
    have harith : n + 1 + (k + 1) = n + (k + 1 + 1) := by omega
    rw [harith]

/-- C5 (amended): in the full rendering, a maximal run of `k ≥ 1`
consecutive indirect steps (always reached with a zero batch count) is
rendered as one `(`+stars token in the prefix list and one `)` token in
the postfix list, around the prefix/postfix split, where: the star count
is `k`, reduced by one when the step immediately after the run is a struct
field; the parentheses are omitted (and the star token emitted bare) when
the run ends the path; and nothing at all is emitted when the reduced
count is zero, i.e. for a single indirection immediately followed by a
struct field. -/
theorem indirect_run_rendering (typ : String) (k : Nat) (hk : 1 ≤ k)
    (rest : List PathStep) (hrest : headIsIndirect rest = false) :
    goRender (List.replicate k (.indirect typ) ++ rest) 0 =
      match rest.head? with
      | none => (repStars k :: (goRender rest 0).1, "" :: (goRender rest 0).2)
      | some (.structField ..) =>
        if k - 1 > 0 then
          (("(" ++ repStars (k - 1)) :: (goRender rest 0).1, ")" :: (goRender rest 0).2)
        else goRender rest 0
      | some _ =>
        (("(" ++ repStars k) :: (goRender rest 0).1, ")" :: (goRender rest 0).2) := by
  obtain ⟨k', rfl⟩ : ∃ k', k = k' + 1 := ⟨k - 1, by omega⟩
  have h := goRender_indirect_run_aux typ k' 0 rest hrest
  rw [Nat.zero_add] at h
  exact h

/-- C5 counterexample: the claim as stated admits only two exceptions, so
for a single indirection followed by a struct field it predicts the tokens
`(` and `)` (count reduced to zero) around the split, i.e. the rendering
`"().A"`; the code emits nothing for that run and renders `".A"`. -/
theorem indirect_run_literal_cex :
    goString [PathStep.indirect "int", PathStep.structField "int" "A" 0] = ".A" ∧
    (".A" : String) ≠ "()" ++ ".A" := by
  constructor
  · rfl
  · decide

theorem indirect_run_rendering_witness :
    goRender (List.replicate 2 (PathStep.indirect "int") ++ [PathStep.sliceIndex "int" 5]) 0 =
      ([("(" ++ repStars 2)], [")", "[5]"]) := by
  have h := indirect_run_rendering "int" 2 (by decide) [PathStep.sliceIndex "int" 5] (by decide)
  rw [h]
  rfl

/-! ### Full rendering: transforms and type assertions (C6) -/

/-- A step with no lookahead behaviour and no prefix emission: the root
step, a slice index, a map index or a struct field. -/
def isSimpleStep : PathStep → Bool
  | .rootStep _ => true
  | .sliceIndex .. => true
  | .mapIndex .. => true
  | .structField .. => true
  | _ => false

theorem goRender_simple (s : PathStep) (hs : isSimpleStep s = true)
    (rest : List PathStep) (n : Nat) :
    goRender (s :: rest) n = ((goRender rest n).1, stepString s :: (goRender rest n).2) := by
  cases s <;> first
    | rfl
    | simp [isSimpleStep] at hs

theorem goRender_simple_append (front : List PathStep)
    (hf : ∀ s ∈ front, isSimpleStep s = true) (tail : List PathStep) (n : Nat) :
    goRender (front ++ tail) n =
      ((goRender tail n).1, front.map stepString ++ (goRender tail n).2) := by
  induction front with
  | nil => simp
  | cons s front' ih =>
    rw [List.cons_append,
      goRender_simple s (hf s (List.mem_cons_self s front')) _ n,
      ih (fun t ht => hf t (List.mem_cons_of_mem s ht))]
    rfl

theorem joinAll_append (l1 l2 : List String) :
    joinAll (l1 ++ l2) = joinAll l1 ++ joinAll l2 := by
  induction l1 with
  | nil => simp [joinAll, String.empty_append]
  | cons x l ih =>
    show x ++ joinAll (l ++ l2) = (x ++ joinAll l) ++ joinAll l2
    rw [ih, String.append_assoc]

/-- C6 (amended): a transform step emits its name followed by `(` into the
prefix list and `)` into the postfix list; since the prefix is reversed
before joining, the call notation wraps everything rendered *up to* that
point of the path (such as a run of simple steps just before the
transform), while the steps after the transform render outside the
parentheses. A type-assertion step emits nothing when the immediately
following step is a transform, and renders as `.(Type)` otherwise. -/
theorem transform_assertion_rendering :
    (∀ (typ name : String) (rest : List PathStep) (n : Nat),
      goRender (.transform typ name :: rest) n =
        ((name ++ "(") :: (goRender rest n).1, ")" :: (goRender rest n).2)) ∧
    (∀ (typ : String) (rest : List PathStep) (n : Nat),
      goRender (.typeAssertion typ :: rest) n =
        match rest.head? with
        | some (.transform ..) => goRender rest n
        | _ => ((goRender rest n).1, (".(" ++ typ ++ ")") :: (goRender rest n).2)) ∧
    (∀ (front : List PathStep), (∀ s ∈ front, isSimpleStep s = true) →
      ∀ (typ name : String) (rest : List PathStep),
        goString (front ++ .transform typ name :: rest) =
          joinAll (goRender rest 0).1.reverse ++ name ++ "(" ++
            joinAll (front.map stepString) ++ ")" ++ joinAll (goRender rest 0).2) := by
  refine ⟨fun typ name rest n => rfl, ?_, ?_⟩
  · intro typ rest n
    cases rest with
    | nil => rfl
    | cons s rest' => cases s <;> rfl
  · intro front hf typ name rest
    unfold goString
    rw [goRender_simple_append front hf (.transform typ name :: rest) 0]
    show joinAll ((name ++ "(") :: (goRender rest 0).1).reverse ++
        joinAll (front.map stepString ++ ")" :: (goRender rest 0).2) = _
    rw [List.reverse_cons, joinAll_append, joinAll_append]
    show joinAll (goRender rest 0).1.reverse ++ ((name ++ "(") ++ "") ++
        (joinAll (front.map stepString) ++ (")" ++ joinAll (goRender rest 0).2)) = _
    rw [String.append_empty]
    simp only [String.append_assoc]

/-- C6 counterexample: the claim predicts that a transform wraps everything
rendered after it, so for a transform followed by a slice index it
predicts `"f([1])"`; the code renders the index outside the parentheses,
producing `"f()[1]"`. -/
theorem transform_wrap_direction_cex :
    goString [PathStep.transform "int" "f", PathStep.sliceIndex "int" 1] = "f()[1]" ∧
    ("f()[1]" : String) ≠ "f([1])" := by
  constructor
  · rfl
  · decide

theorem transform_assertion_rendering_witness :
    goString [PathStep.sliceIndex "int" 1, PathStep.transform "int" "f"] = "f([1])" := by
  have h := transform_assertion_rendering.2.2 [PathStep.sliceIndex "int" 1]
    (by intro s hs; simp at hs; rw [hs]; rfl) "int" "f" []
  rw [List.singleton_append] at h
  rw [h]
  rfl

/-! ### Spec-modelled comparison engine (C1 - C4)

The walker, rule resolver and diff reporter are not among the provided
source files (only their tests are), so the definitions below are modelled
from the specification (sections 3, 4.2, 4.3, 4.4, 6). -/

/-- Modelled from the spec: the value universe the walker traverses. The
missing walker source compares arbitrary runtime values; the model keeps a
primitive leaf with a type tag and a value, a two-field record (the
composite case), and a nilable reference whose identity is a heap address,
which is what the cycle-detection set keys on. -/
inductive Val where
  | prim (t : String) (n : Int)
  | pairV (t : String) (a b : Val)
  | ptr (t : String) (addr : Option Nat)
deriving DecidableEq

/-- The type of the value at a node, which type-matched rules match on. -/
def typeOf : Val → String
  | .prim t _ => t
  | .pairV t _ _ => t
  | .ptr t _ => t

/-- A heap giving each reference identity its referenced value. -/
abbrev Heap := List (Nat × Val)

/-- A filter predicate over the current path and value pair. -/
abbrev RulePred := List PathStep → Val → Val → Bool

/-- Modelled from the spec: a core rule - Ignore (terminal), Comparer
(terminal, with its declared parameter type, `none` for the universal
untyped type) or Transformer (non-terminal). `fid` models the identity of
the rule's function, used when deciding whether two matched rules
prescribe the same action. -/
inductive CoreRule where
  | ignoreR
  | comparerR (t : Option String) (fid : Nat) (f : Val → Val → Bool)
  | transformerR (name : String) (t : Option String) (fid : Nat) (f : Val → Val)

/-- Modelled from the spec: a rule (option): a bare core rule, a filter
scoping an inner rule, a nested rule set, or an unrecognised option. -/
inductive Rule where
  | core (c : CoreRule)
  | filterR (p : RulePred) (r : Rule)
  | options (rs : List Rule)
  | unknown

/-- The fatal configuration / invariant errors of the engine. `exhausted`
is the model's marker for a traversal that would not terminate. -/
inductive CmpError where
  | unknownOption
  | unfilteredOption
  | ambiguousOptions
  | exhausted
deriving DecidableEq

/-- Conjunction of a filter predicate with the (optional) predicate
accumulated from enclosing filters. -/
def predAnd (p : RulePred) (q : Option RulePred) : RulePred :=
  fun path x y =>
    p path x y && (match q with | none => true | some q2 => q2 path x y)

mutual

/-- Modelled from the spec: depth-first flattening of a rule, preserving
declaration order; a filter scopes everything beneath it, and an
unrecognised option is rejected as soon as it is encountered. -/
def flattenRule : Rule → Except CmpError (List (Option RulePred × CoreRule))
  | .core c => .ok [(none, c)]
  | .filterR p r =>
    match flattenRule r with
    | .error e => .error e
    | .ok l => .ok (l.map fun qc => (some (predAnd p qc.1), qc.2))
  | .options rs => flattenList rs
  | .unknown => .error .unknownOption

/-- Flattening of a rule list, in declaration order. -/
def flattenList : List Rule → Except CmpError (List (Option RulePred × CoreRule))
  | [] => .ok []
  | r :: rs =>
    match flattenRule r with
    | .error e => .error e
    | .ok l1 =>
      match flattenList rs with
      | .error e => .error e
      | .ok l2 => .ok (l1 ++ l2)

end

/-- A bare rule whose declared parameter type is the universal untyped
type: a bare Ignore, or a comparer / transformer declared over it. -/
def isUniversal : CoreRule → Bool
  | .ignoreR => true
  | .comparerR none _ _ => true
  | .comparerR (some _) _ _ => false
  | .transformerR _ none _ _ => true
  | .transformerR _ (some _) _ _ => false

/-- Whether a bare rule's declared type matches the node's type. -/
def typeMatches : CoreRule → String → Bool
  | .ignoreR, _ => true
  | .comparerR t _ _, ty => t == some ty
  | .transformerR _ t _ _, ty => t == some ty

/-- Whether two matched rules prescribe the same action (same kind, same
declared type, same function identity). -/
def sameCore : CoreRule → CoreRule → Bool
  | .ignoreR, .ignoreR => true
  | .comparerR t1 i1 _, .comparerR t2 i2 _ => t1 == t2 && i1 == i2
  | .transformerR n1 t1 i1 _, .transformerR n2 t2 i2 _ =>
    n1 == n2 && t1 == t2 && i1 == i2
  | _, _ => false

/-- The first scoped rule, in declaration order, whose predicate is
satisfied at the node. -/
def firstScoped :
    List (Option RulePred × CoreRule) → List PathStep → Val → Val → Option CoreRule
  | [], _, _, _ => none
  | (some p, c) :: rest, path, x, y =>
    if p path x y then some c else firstScoped rest path x y
  | (none, _) :: rest, path, x, y => firstScoped rest path x y

/-- The bare (unscoped) rules of a flattened rule list, in order. -/
def unscopedRules (flat : List (Option RulePred × CoreRule)) : List CoreRule :=
  (flat.filter fun qc => qc.1.isNone).map Prod.snd

/-- The bare rules whose declared type matches the node's type. -/
def typeMatched (flat : List (Option RulePred × CoreRule)) (ty : String) :
    List CoreRule :=
  (unscopedRules flat).filter fun c => typeMatches c ty

/-- Modelled from the spec: the rule resolver. Flatten the rule set
(unknown options fatal); evaluate scoped rules in declaration order and
let the first satisfied one win outright; otherwise reject any bare
universal rule as unfiltered; otherwise, of the type-matched bare rules,
none means default structural recursion, one (or several prescribing the
same action) applies, and disagreeing matches are ambiguous. -/
def resolve (rules : List Rule) (path : List PathStep) (x y : Val) :
    Except CmpError (Option CoreRule) :=
  match flattenList rules with
  | .error e => .error e
  | .ok flat =>
    match firstScoped flat path x y with
    | some c => .ok (some c)
    | none =>
      match (unscopedRules flat).any isUniversal with
      | true => .error .unfilteredOption
      | false =>
        match typeMatched flat (typeOf x) with
        | [] => .ok none
        | c :: cs =>
          match cs.all (sameCore c) with
          | true => .ok (some c)
          | false => .error .ambiguousOptions

/-- The verdict of a leaf report record. -/
inductive RKind where
  | eqK
  | diffK
  | ignoredK
deriving DecidableEq

/-- A report record: path, verdict and the rendered old / new values. -/
structure Record where
  path : List PathStep
  kind : RKind
  oldV : String
  newV : String

/-- Rendering of a value for a report record. -/
def renderVal : Val → String
  | .prim _ n => toString n
  | .pairV t _ _ => "\x7b" ++ t ++ "\x7d"
  | .ptr _ none => "<nil>"
  | .ptr _ (some a) => "&" ++ toString a

/-- Modelled from the spec: the recursive walker. At each node it queries
the resolver; Ignore emits an ignored leaf, a comparer emits an
equal/differ leaf from its function's verdict, a transformer pushes a
transform step and recurses on the transformed values. With no rule it
recurses structurally: primitives compare by value, records recurse
field-wise under struct-field steps, references treat nil/nil as equal,
nil/non-nil as differing, and otherwise push an indirect step and recurse
on the referenced values while keying the pair of reference identities in
the per-branch cycle-detection set - a pair already being visited is
treated as equal and recursion stops. The fuel argument models the
unbounded recursion of the original; running out is the model's marker
for divergence. -/
def walk (rules : List Rule) (h : Heap) :
    Nat → List (Nat × Nat) → List PathStep → Val → Val →
      Except CmpError (List Record)
  | 0, _, _, _, _ => .error .exhausted
  | fuel + 1, vis, path, x, y =>
    match resolve rules path x y with
    | .error e => .error e
    | .ok (some .ignoreR) => .ok [⟨path, .ignoredK, renderVal x, renderVal y⟩]
    | .ok (some (.comparerR _ _ f)) =>
      .ok [⟨path, if f x y then .eqK else .diffK, renderVal x, renderVal y⟩]
    | .ok (some (.transformerR name _ _ f)) =>
      walk rules h fuel vis (pushStep path (.transform (typeOf x) name)) (f x) (f y)
    | .ok none =>
      match x, y with
      | .prim t a, .prim t2 b =>
        .ok [⟨path, if t == t2 && a == b then .eqK else .diffK,
          renderVal x, renderVal y⟩]
      | .pairV t a b, .pairV t2 c d =>
        if t == t2 then
          match walk rules h fuel vis (pushStep path (.structField t "A" 0)) a c with
          | .error e => .error e
          | .ok r1 =>
            match walk rules h fuel vis (pushStep path (.structField t "B" 1)) b d with
            | .error e => .error e
            | .ok r2 => .ok (r1 ++ r2)
        else .ok [⟨path, .diffK, renderVal x, renderVal y⟩]
      | .ptr t oa, .ptr _ ob =>
        match oa, ob with
        | none, none => .ok [⟨path, .eqK, renderVal x, renderVal y⟩]
        | some a, some b =>
          if (a, b) ∈ vis then .ok [⟨path, .eqK, renderVal x, renderVal y⟩]
          else
            match h.lookup a, h.lookup b with
            | some vx, some vy =>
              walk rules h fuel ((a, b) :: vis) (pushStep path (.indirect t)) vx vy
            | none, none => .ok [⟨path, .eqK, renderVal x, renderVal y⟩]
            | _, _ => .ok [⟨path, .diffK, renderVal x, renderVal y⟩]
        | _, _ => .ok [⟨path, .diffK, renderVal x, renderVal y⟩]
      | _, _ => .ok [⟨path, .diffK, renderVal x, renderVal y⟩]

/-- Modelled from the spec: the diff reporter's block for one record - for
a differ record, the full path, then the old and the new rendering on
indented lines; equal and ignored records render nothing. -/
def renderRecord (r : Record) : String :=
  match r.kind with
  | .diffK =>
    goString r.path ++ ":\n\t-: " ++ r.oldV ++ "\n\t+: " ++ r.newV ++ "\n"
  | _ => ""

/-- The diff reporter's whole output: the records' blocks in order. -/
def renderReport (rs : List Record) : String := joinAll (rs.map renderRecord)

/-- Whether a record stream contains no differ record. -/
def noDiffs (rs : List Record) : Bool := rs.all fun r => !(r.kind == .diffK)

/-- One traversal from the root (path index 0 is the operation-less root
step, the cycle-detection set starts empty). -/
def runWalk (fuel : Nat) (rules : List Rule) (h : Heap) (x y : Val) :
    Except CmpError (List Record) :=
  walk rules h fuel [] [.rootStep (typeOf x)] x y

/-- Modelled from the spec: `diff(x, y, rules...)` - run the traversal and
render the diff reporter's output; fatal errors propagate. -/
def diffFn (fuel : Nat) (rules : List Rule) (h : Heap) (x y : Val) :
    Except CmpError String :=
  (runWalk fuel rules h x y).map renderReport

/-- Modelled from the spec: `equal(x, y, rules...)` - true iff the
traversal completes with no differ leaf record; fatal errors propagate. -/
def equalFn (fuel : Nat) (rules : List Rule) (h : Heap) (x y : Val) :
    Except CmpError Bool :=
  (runWalk fuel rules h x y).map noDiffs

/-! ### C1: diff is empty iff equal -/

theorem renderRecord_empty_iff (r : Record) :
    renderRecord r = "" ↔ (!(r.kind == RKind.diffK)) = true := by
  obtain ⟨path, kind, o, nw⟩ := r
  cases kind
  · simp [renderRecord]
  · simp only [renderRecord]
    constructor
    · intro hc
      exfalso
      have hl := congrArg String.length hc
      simp only [String.length_append] at hl
      have h6 : (":\n\t-: " : String).length = 6 := rfl
      have h5 : ("\n\t+: " : String).length = 5 := rfl
      have h1 : ("\n" : String).length = 1 := rfl
      have h0 : ("" : String).length = 0 := rfl
      omega
    · intro hb
      simp at hb
  · simp [renderRecord]

theorem renderReport_empty_iff (rs : List Record) :
    renderReport rs = "" ↔ noDiffs rs = true := by
  induction rs with
  | nil => simp [renderReport, noDiffs, joinAll]
  | cons r rest ih =>
    have hcons : renderReport (r :: rest) = renderRecord r ++ renderReport rest := rfl
    rw [hcons]
    have hsplit : renderRecord r ++ renderReport rest = "" ↔
        renderRecord r = "" ∧ renderReport rest = "" := by
      constructor
      · intro hc
        have hl := congrArg String.length hc
        simp only [String.length_append] at hl
        constructor
        · rw [String.ext_iff]
          have := congrArg String.data hc
          rw [String.data_append] at this
          exact (List.append_eq_nil.mp this).1
        · rw [String.ext_iff]
          have := congrArg String.data hc
          rw [String.data_append] at this
          exact (List.append_eq_nil.mp this).2
      · rintro ⟨h1, h2⟩
        rw [h1, h2, String.append_empty]
    rw [hsplit, renderRecord_empty_iff, ih]
    simp [noDiffs]

/-- C1: for every fuel, every rule set and every pair of values,
`diff(x, y)` returns the empty string exactly when `equal(x, y)` returns
true; a fatal error makes both sides fail alike. -/
theorem diff_empty_iff_equal (fuel : Nat) (rules : List Rule) (h : Heap)
    (x y : Val) :
    diffFn fuel rules h x y = .ok "" ↔ equalFn fuel rules h x y = .ok true := by
  unfold diffFn equalFn
  cases hw : runWalk fuel rules h x y with
  | error e => simp [Except.map]
  | ok rs =>
    simp only [Except.map, Except.ok.injEq]
    exact renderReport_empty_iff rs

/-! ### C2: reflexivity of equal, with cycle detection -/

/-- The structural nesting depth of a value (references count as leaves:
following one consumes an entry of the cycle budget instead). -/
def depthV : Val → Nat
  | .prim _ _ => 0
  | .ptr _ _ => 0
  | .pairV _ a b => 1 + max (depthV a) (depthV b)

/-- The largest depth of a value stored in the heap. -/
def maxHeapDepth (h : Heap) : Nat := (h.map fun p => depthV p.2).foldr max 0

/-- The number of distinct heap addresses whose diagonal identity pair is
not yet in the cycle-detection set: the budget of pointer steps a
reflexive traversal can still take. -/
def diagCount (h : Heap) (vis : List (Nat × Nat)) : Nat :=
  ((h.map Prod.fst).toFinset.filter fun a => (a, a) ∉ vis).card

/-- The fuel that suffices for a reflexive traversal of `v` over `h`. -/
def reflFuel (h : Heap) (v : Val) : Nat :=
  diagCount h [] * (1 + maxHeapDepth h) + depthV v + 1

theorem lookup_mem {h : Heap} {a : Nat} {w : Val} (hl : h.lookup a = some w) :
    (a, w) ∈ h := by
  induction h with
  | nil => simp [List.lookup] at hl
  | cons p t ih =>
    obtain ⟨k, u⟩ := p
    rw [List.lookup] at hl
    by_cases hk : a = k
    · subst hk
      simp at hl
      simp [hl]
    · have hbeq : (a == k) = false := by simpa using hk
      rw [hbeq] at hl
      exact List.mem_cons_of_mem _ (ih hl)

theorem mem_le_foldr_max (n : Nat) (l : List Nat) (hm : n ∈ l) :
    n ≤ l.foldr max 0 := by
  induction l with
  | nil => simp at hm
  | cons x t ih =>
    rcases List.mem_cons.mp hm with h | h
    · subst h; exact Nat.le_max_left _ _
    · exact Nat.le_trans (ih h) (Nat.le_max_right _ _)

theorem depth_le_maxHeapDepth {h : Heap} {a : Nat} {w : Val}
    (hl : h.lookup a = some w) : depthV w ≤ maxHeapDepth h := by
  apply mem_le_foldr_max
  exact List.mem_map_of_mem _ (lookup_mem hl)

theorem diagCount_cons {h : Heap} {vis : List (Nat × Nat)} {a : Nat}
    (ha : a ∈ h.map Prod.fst) (hv : (a, a) ∉ vis) :
    diagCount h ((a, a) :: vis) + 1 = diagCount h vis := by
  classical
  have haS : a ∈ ((h.map Prod.fst).toFinset.filter fun b => (b, b) ∉ vis) :=
    Finset.mem_filter.mpr ⟨List.mem_toFinset.mpr ha, hv⟩
  have hset : ((h.map Prod.fst).toFinset.filter fun b => (b, b) ∉ (a, a) :: vis) =
      ((h.map Prod.fst).toFinset.filter fun b => (b, b) ∉ vis).erase a := by
    ext b
    simp only [Finset.mem_filter, Finset.mem_erase, List.mem_cons, Prod.mk.injEq,
      and_self, not_or, ne_eq]
    tauto
  unfold diagCount
  rw [hset, Finset.card_erase_of_mem haS]
  have hpos : 0 < ((h.map Prod.fst).toFinset.filter fun b => (b, b) ∉ vis).card :=
    Finset.card_pos.mpr ⟨a, haS⟩
  omega

theorem walk_refl_aux (h : Heap) :
    ∀ fuel : Nat, ∀ (v : Val) (vis : List (Nat × Nat)) (path : List PathStep),
      diagCount h vis * (1 + maxHeapDepth h) + depthV v < fuel →
      ∃ rs, walk [] h fuel vis path v v = .ok rs ∧ noDiffs rs = true := by
  intro fuel
  induction fuel with
  | zero => intro v vis path hlt; exact absurd hlt (Nat.not_lt_zero _)
  | succ n ih =>
    intro v vis path hlt
    have hres : resolve [] path v v = .ok none := rfl
    cases v with
    | prim t k =>
      refine ⟨[⟨path, .eqK, renderVal (.prim t k), renderVal (.prim t k)⟩], ?_, rfl⟩
      simp [walk, hres]
    | pairV t a b =>
      have hda : diagCount h vis * (1 + maxHeapDepth h) + depthV a < n := by
        have : depthV a < depthV (.pairV t a b) := by
          simp [depthV]; omega
        omega
      have hdb : diagCount h vis * (1 + maxHeapDepth h) + depthV b < n := by
        have : depthV b < depthV (.pairV t a b) := by
          simp [depthV]; omega
        omega
      obtain ⟨r1, hw1, hn1⟩ := ih a vis (pushStep path (.structField t "A" 0)) hda
      obtain ⟨r2, hw2, hn2⟩ := ih b vis (pushStep path (.structField t "B" 1)) hdb
      refine ⟨r1 ++ r2, ?_, ?_⟩
      · simp [walk, hres, hw1, hw2]
      · simp only [noDiffs, List.all_append, Bool.and_eq_true]
        exact ⟨hn1, hn2⟩
    | ptr t oa =>
      cases oa with
      | none =>
        refine ⟨[⟨path, .eqK, renderVal (.ptr t none), renderVal (.ptr t none)⟩], ?_, rfl⟩
        simp [walk, hres]
      | some a =>
        by_cases hvc : (a, a) ∈ vis
        · refine ⟨[⟨path, .eqK, renderVal (.ptr t (some a)),
            renderVal (.ptr t (some a))⟩], ?_, rfl⟩
          simp [walk, hres, hvc]
        · cases hlk : h.lookup a with
          | none =>
            refine ⟨[⟨path, .eqK, renderVal (.ptr t (some a)),
              renderVal (.ptr t (some a))⟩], ?_, rfl⟩
            simp [walk, hres, hvc, hlk]
          | some w =>
            have hmem : (a, w) ∈ h := lookup_mem hlk
            have ha : a ∈ h.map Prod.fst := List.mem_map_of_mem _ hmem
            have hcnt := diagCount_cons ha hvc
            have hwle : depthV w ≤ maxHeapDepth h := depth_le_maxHeapDepth hlk
            have hd : diagCount h ((a, a) :: vis) * (1 + maxHeapDepth h) +
                depthV w < n := by
              have hexp : diagCount h vis * (1 + maxHeapDepth h) =
                  diagCount h ((a, a) :: vis) * (1 + maxHeapDepth h) +
                    (1 + maxHeapDepth h) := by
                rw [← hcnt, Nat.succ_mul]
              rw [hexp] at hlt
              have hdv : depthV (Val.ptr t (some a)) = 0 := rfl
              rw [hdv] at hlt
              omega
            obtain ⟨rs, hwk, hnd⟩ := ih w ((a, a) :: vis)
              (pushStep path (.indirect t)) hd
            refine ⟨rs, ?_, hnd⟩
            simp [walk, hres, hvc, hlk, hwk]

/-- C2: for every heap and every value `v` - cyclic reference structures
included - `equal(v, v)` succeeds and returns true with the computed
sufficient fuel: a reference-identity pair already being visited on the
current branch is treated as equal and recursion stops, so the traversal
terminates instead of diverging. -/
theorem equal_self_with_cycles (h : Heap) (v : Val) :
    equalFn (reflFuel h v) [] h v v = .ok true := by
  obtain ⟨rs, hwk, hnd⟩ :=
    walk_refl_aux h (reflFuel h v) v [] [.rootStep (typeOf v)]
      (Nat.lt_succ_self _)
  unfold equalFn runWalk
  rw [hwk]
  simp [Except.map, hnd]

/-! ### C3: unscoped universal rules are rejected -/

/-- C3: a bare rule whose applicability is universal (an unscoped ignore,
or an unscoped comparer or transformer over the untyped universal type)
makes the resolver fail with the unfiltered-option configuration error as
soon as it is reached un-scoped (no scoped rule preempted the node),
regardless of whether it would otherwise have won. -/
theorem unfiltered_option_rejected (rules : List Rule) (path : List PathStep)
    (x y : Val) (flat : List (Option RulePred × CoreRule))
    (hflat : flattenList rules = .ok flat)
    (hscope : firstScoped flat path x y = none)
    (huniv : (unscopedRules flat).any isUniversal = true) :
    resolve rules path x y = .error .unfilteredOption := by
  simp only [resolve, hflat, hscope, huniv]

theorem unfiltered_option_rejected_witness :
    resolve [Rule.core CoreRule.ignoreR] [PathStep.rootStep "int"]
      (Val.prim "int" 1) (Val.prim "int" 1) = .error .unfilteredOption :=
  unfiltered_option_rejected _ _ _ _ [(none, CoreRule.ignoreR)] rfl rfl rfl

/-! ### C4: ambiguity of bare matches, priority of scoped rules -/

theorem sameCore_refl (c : CoreRule) : sameCore c c = true := by
  cases c <;> simp [sameCore]

theorem sameCore_trans {a b c : CoreRule} (hab : sameCore a b = true)
    (hac : sameCore a c = true) : sameCore b c = true := by
  cases a <;> cases b <;> cases c <;> simp_all [sameCore]

/-- C4: with a flattened rule set, (i) when no scoped rule fires and no
bare universal rule is present, two type-matched bare rules that both
match the node's type but prescribe different actions make the resolver
fail with the ambiguous-options error; (ii) when a scoped rule's predicate
is satisfied, the first such rule wins outright and no ambiguity error is
raised for the type-matched rules. -/
theorem scoped_wins_bare_ambiguous (rules : List Rule) (path : List PathStep)
    (x y : Val) (flat : List (Option RulePred × CoreRule))
    (hflat : flattenList rules = .ok flat) :
    (∀ c1 c2,
      firstScoped flat path x y = none →
      (unscopedRules flat).any isUniversal = false →
      c1 ∈ typeMatched flat (typeOf x) →
      c2 ∈ typeMatched flat (typeOf x) →
      sameCore c1 c2 = false →
      resolve rules path x y = .error .ambiguousOptions) ∧
    (∀ c, firstScoped flat path x y = some c →
      resolve rules path x y = .ok (some c)) := by
  constructor
  · intro c1 c2 hscope huniv hm1 hm2 hdiff
    simp only [resolve, hflat, hscope, huniv]
    cases hty : typeMatched flat (typeOf x) with
    | nil =>
      rw [hty] at hm1
      simp at hm1
    | cons c cs =>
      rw [hty] at hm1 hm2
      simp only [hty]
      cases hall : cs.all (sameCore c) with
      | false => rfl
      | true =>
        exfalso
        have hc1 : sameCore c c1 = true := by
          rcases List.mem_cons.mp hm1 with h | h
          · subst h; exact sameCore_refl _
          · exact List.all_eq_true.mp hall c1 h
        have hc2 : sameCore c c2 = true := by
          rcases List.mem_cons.mp hm2 with h | h
          · subst h; exact sameCore_refl _
          · exact List.all_eq_true.mp hall c2 h
        have hcc : sameCore c1 c2 = true := sameCore_trans hc1 hc2
        rw [hcc] at hdiff
        exact Bool.noConfusion hdiff
  · intro c hscope
    simp only [resolve, hflat, hscope]

/-- A bare comparer declared over the integer type. -/
def cmparInt : CoreRule := .comparerR (some "int") 1 fun _ _ => true

/-- A bare transformer declared over the integer type. -/
def transInt : CoreRule := .transformerR "" (some "int") 2 fun v => v

/-- A path/value filter predicate that always matches. -/
def alwaysP : RulePred := fun _ _ _ => true

theorem scoped_wins_bare_ambiguous_witness :
    resolve [Rule.core cmparInt, Rule.core transInt] [PathStep.rootStep "int"]
      (Val.prim "int" 1) (Val.prim "int" 1) = .error .ambiguousOptions ∧
    resolve [Rule.filterR alwaysP (Rule.options
        [Rule.core .ignoreR, Rule.core .ignoreR, Rule.core .ignoreR]),
      Rule.core cmparInt, Rule.core transInt] [PathStep.rootStep "int"]
      (Val.prim "int" 1) (Val.prim "int" 1) = .ok (some CoreRule.ignoreR) := by
  constructor
  · exact (scoped_wins_bare_ambiguous [Rule.core cmparInt, Rule.core transInt]
      [PathStep.rootStep "int"] (Val.prim "int" 1) (Val.prim "int" 1)
      [(none, cmparInt), (none, transInt)] rfl).1 cmparInt transInt rfl rfl
      (show cmparInt ∈ [cmparInt, transInt] from List.mem_cons_self _ _)
      (show transInt ∈ [cmparInt, transInt] from
        List.mem_cons_of_mem _ (List.mem_cons_self _ _))
      rfl
  · exact (scoped_wins_bare_ambiguous
      [Rule.filterR alwaysP (Rule.options
        [Rule.core .ignoreR, Rule.core .ignoreR, Rule.core .ignoreR]),
        Rule.core cmparInt, Rule.core transInt]
      [PathStep.rootStep "int"] (Val.prim "int" 1) (Val.prim "int" 1)
      [(some (predAnd alwaysP none), CoreRule.ignoreR),
       (some (predAnd alwaysP none), CoreRule.ignoreR),
       (some (predAnd alwaysP none), CoreRule.ignoreR),
       (none, cmparInt), (none, transInt)] rfl).2 CoreRule.ignoreR rfl

end GoCmp
